import Mathlib

/-!
# ql-fstest: `src/file.cc`

A shallow embedding of the `File` class of the filesystem stress tester
(`src/file.cc`) and theorems about it.

Modelling conventions
* A byte is a `UInt8`; a buffer or a stored file is a `List Byte`.
* `BUF_SIZE` is the constant of line 33.  Every function that uses it takes the
  buffer size as its first argument `B`, so that small instances can be
  evaluated; the theorems about the program instantiate `B := BUF_SIZE`.
* The outside world is explicit: the results of successive `read(2)` /
  `write(2)` calls are a script (`List IoEv`) consumed one event per call (an
  exhausted script means "the call transfers everything that was asked for"),
  return codes of `fdatasync`, `close`, `pthread_mutex_unlock` are arguments,
  and the contents of freshly `malloc`ed memory are an arbitrary function
  `junk`.
* `EXIT(1)` is `Res.exit`; a loop that runs out of fuel is `Res.diverge`.
* `file.h`, `fstest.h`, `config.h` and the `Dir` class are not part of the
  sources; `id.checksum` is taken as an arbitrary list of bytes (the seed),
  counters as natural numbers, `RETURN(x)` / `RETURNV` as plain returns, and
  `Dir::remove_file` / `Dir::path` as parameters.
* Output to `cout` / `cerr`, `posix_fadvise` and the time stamp are not
  modelled; `malloc` is assumed to succeed.
-/

namespace Fstest

/-! ## Basic types -/

abbrev Byte := UInt8

/-- The constant `BUF_SIZE = 1024*1024` of line 33 ("Must be power of 2"). -/
def BUF_SIZE : Nat := 1024 * 1024

/-- The errno value `ENOSPC`. -/
def ENOSPC : Nat := 28

/-- The errno value `ENOENT`. -/
def ENOENT : Nat := 2

/-- The errno value `EBUSY`. -/
def EBUSY : Nat := 16

/-- Outcome of a run of program code: a normal return, `EXIT(1)`, or a loop
that never terminates (the model ran out of fuel). -/
inductive Res (α : Type) where
  | ok (a : α)
  | exit
  | diverge
deriving DecidableEq

/-- One scripted result of a `read(2)` or `write(2)` call: the call fails with
the given errno (returns a negative value), or the kernel is willing to
transfer at most `n` bytes. -/
inductive IoEv where
  | err (errno : Nat)
  | bytes (n : Nat)
deriving DecidableEq

/-- A script without failing calls. -/
def no_err : List IoEv → Bool
  | [] => true
  | IoEv.err _ :: _ => false
  | IoEv.bytes _ :: s => no_err s

/-- A script in which every call transfers at least one byte when at least one
byte can be transferred (a call cannot return `0` except at end of file). -/
def progress : List IoEv → Bool
  | [] => true
  | IoEv.err _ :: s => progress s
  | IoEv.bytes n :: s => decide (0 < n) && progress s

/-- A script in which every successful call takes at least `m` bytes. -/
def accepts (m : Nat) : List IoEv → Bool
  | [] => true
  | IoEv.err _ :: s => accepts m s
  | IoEv.bytes n :: s => decide (m ≤ n) && accepts m s

/-- C `memcpy(&dst[off], src, src.length)` on a buffer held in a list. Writing
past the end of `dst` (undefined behaviour in C) lengthens the list. -/
def memcpy (dst : List Byte) (off : Nat) (src : List Byte) : List Byte :=
  dst.take off ++ src ++ dst.drop (off + src.length)

/-- A freshly `malloc`ed block of `n` bytes: its contents are arbitrary. -/
def malloc (junk : Nat → Byte) (n : Nat) : List Byte := (List.range n).map junk

/-- An open file descriptor on a regular file: the stored bytes and the file
position. -/
structure Fd where
  content : List Byte
  pos : Nat
deriving DecidableEq

/-- The call `read(fd, ., req)`: `none` is a negative return value, `some data`
the bytes delivered (the return value is `data.length`, `0` at end of file).
The file position advances by the number of bytes delivered. -/
def sys_read (fd : Fd) (req : Nat) : List IoEv → Option (List Byte) × Fd × List IoEv
  | [] =>
    let data := (fd.content.drop fd.pos).take req
    (some data, { fd with pos := fd.pos + data.length }, [])
  | IoEv.err _ :: s => (none, fd, s)
  | IoEv.bytes n :: s =>
    let data := (fd.content.drop fd.pos).take (min req n)
    (some data, { fd with pos := fd.pos + data.length }, s)

/-- Bytes `[pos, pos + data.length)` of a stored file are replaced by `data`;
the file grows when the range ends after its end (a gap is zero-filled). -/
def pwrite (content : List Byte) (pos : Nat) (data : List Byte) : List Byte :=
  content.take pos ++ List.replicate (pos - content.length) 0 ++ data
    ++ content.drop (pos + data.length)

/-- The call `write(fd, src, src.length)`: `Sum.inl errno` is a negative return
value, `Sum.inr n` the number of bytes written (a prefix of `src`). -/
def sys_write (fd : Fd) (src : List Byte) : List IoEv → (Nat ⊕ Nat) × Fd × List IoEv
  | [] =>
    (Sum.inr src.length,
      { content := pwrite fd.content fd.pos src, pos := fd.pos + src.length }, [])
  | IoEv.err e :: s => (Sum.inl e, fd, s)
  | IoEv.bytes n :: s =>
    let data := src.take n
    (Sum.inr data.length,
      { content := pwrite fd.content fd.pos data, pos := fd.pos + data.length }, s)

/-! ## The `File` object -/

/-- The fields of `class File` that `file.cc` uses. `prev` and `next` are
addresses of other `File` objects, `locked` is the state of `mutex`. -/
structure File where
  prev : Option Nat
  next : Option Nat
  num_checks : Nat
  sync_failed : Bool
  has_error : Bool
  in_delete : Bool
  fsize : Nat
  id_value : Nat
  checksum : List Byte
  fname : List Char
  locked : Bool
deriving DecidableEq

/-! ## Constructor: size and name (lines 49-55 and 75-76) -/

/-- Reduction of a value to an unsigned 64-bit `size_t` / `uint64_t`. -/
def u64 (n : Nat) : Nat := n % 2 ^ 64

/-- Lines 49-55: `r_size` is the value of the first call of `random()`
(line 51), `r_exp` the value of the second (line 54). All arithmetic is
unsigned 64-bit. A shift count of 64 or more is undefined in C; here it
yields `0`. -/
def File.init_fsize (size_min size_max r_size r_exp : Nat) : Nat :=
  let random_size := u64 (r_size % 4096)
  let range := u64 (u64 (u64 size_max + 2 ^ 64 - u64 size_min) + 1)
  let shift := u64 (u64 size_min + u64 r_exp % range)
  let fsize := u64 (2 ^ shift)
  u64 (fsize + random_size)

/-- A hexadecimal digit as `printf` prints it with `%x`. -/
def hex_digit (d : Nat) : Char :=
  if d < 10 then Char.ofNat (48 + d) else Char.ofNat (87 + d)

/-- Most significant digits first, in front of `acc`; no digit for `0`. -/
def hex_aux : Nat → Nat → List Char → List Char
  | 0, _, acc => acc
  | fuel + 1, n, acc =>
    if n = 0 then acc else hex_aux fuel (n / 16) (hex_digit (n % 16) :: acc)

/-- The conversion `%x` of `printf`: no padding, lower case, `"0"` for zero. -/
def printf_x (n : Nat) : List Char :=
  if n = 0 then ['0'] else hex_aux n n []

/-- Line 76: `snprintf(fname, 9, "%x", id.value)`, with `id.value` an unsigned
32-bit number: at most 8 characters are stored. -/
def File.init_fname (id_value : Nat) : List Char :=
  (printf_x (id_value % 2 ^ 32)).take 8

/-- Value of a hexadecimal digit character. -/
def hex_value (c : Char) : Nat :=
  if c.toNat < 58 then c.toNat - 48 else c.toNat - 87

/-- The number a string of hexadecimal digits denotes. -/
def hex_parse (s : List Char) : Nat :=
  s.foldl (fun acc c => acc * 16 + hex_value c) 0

/-- A lower-case hexadecimal digit. -/
def is_hex (c : Char) : Bool :=
  (48 ≤ c.toNat && c.toNat ≤ 57) || (97 ≤ c.toNat && c.toNat ≤ 102)

/-! ## Pattern generation (lines 126-132 and 288-294) -/

/-- The loop `while (size < BUF_SIZE) { memcpy(&buf[size], &buf[0], size);
size *= 2; }`. It does not terminate when `size = 0`. -/
def fill_loop (B : Nat) : Nat → List Byte → Nat → Res (List Byte)
  | 0, _, _ => Res.diverge
  | fuel + 1, buf, size =>
    if size < B then fill_loop B fuel (memcpy buf size (buf.take size)) (size * 2)
    else Res.ok buf

/-- Lines 126-132 (and, with `bufm` for `buf`, lines 288-294): the seed
`id.checksum` is copied to the start of the buffer, then doubled. -/
def fill_pattern (B : Nat) (checksum : List Byte) (buf : List Byte) : Res (List Byte) :=
  fill_loop B (B + 1) (memcpy buf 0 checksum) checksum.length

/-! ## Verification: `File::check_fd` (lines 271-381) -/

/-- Local state of the read loop of `check_fd`. -/
structure RdState where
  fd : Fd
  buff : List Byte
  file_read_size : Nat
  script : List IoEv
deriving DecidableEq

/-- How the inner `while (buf_offset < BUF_SIZE)` loop is left: by `goto out`
with a value of `ret`, or with a completely filled buffer. -/
inductive ChunkRes where
  | out (ret : Nat) (st : RdState)
  | full (st : RdState)
deriving DecidableEq

/-- Lines 300-342: the loop that fills `buff` from the file. -/
def read_chunk (B fsize : Nat) : Nat → Nat → RdState → Res ChunkRes
  | 0, _, _ => Res.diverge
  | fuel + 1, buf_offset, st =>
    if buf_offset < B then
      match sys_read st.fd (B - buf_offset) st.script with
      | (none, fd, s) => Res.ok (ChunkRes.out 1 { st with fd := fd, script := s })
      | (some data, fd, s) =>
        let read_len := data.length
        let file_read_size := st.file_read_size + read_len
        let st1 : RdState :=
          { fd := fd, buff := st.buff, file_read_size := file_read_size, script := s }
        if read_len = 0 then Res.ok (ChunkRes.out 0 st1)
        else if file_read_size > fsize then Res.ok (ChunkRes.out 0 st1)
        else read_chunk B fsize fuel (buf_offset + read_len)
          { st1 with buff := memcpy st.buff buf_offset data }
    else Res.ok (ChunkRes.full st)

/-- What `check_fd` hands back: the value it returns, the object afterwards
(`has_error` may have been set) and, as a ghost output, the pair
`(size, cmpsize)` of every `memcmp(bufm, buff, cmpsize)` of line 349 in the
order of execution. -/
structure CheckOut where
  ret : Nat
  file : File
  compared : List (Nat × Nat)
deriving DecidableEq

/-- Lines 298-371: the loop `for (size = 0; size < fsize; size += BUF_SIZE)`. -/
def check_loop (B : Nat) (bufm : List Byte) :
    Nat → Nat → File → List (Nat × Nat) → RdState → Res CheckOut
  | 0, _, _, _, _ => Res.diverge
  | fuel + 1, size, f, log, st =>
    if size < f.fsize then
      match read_chunk B f.fsize (B + 1) 0 st with
      | Res.exit => Res.exit
      | Res.diverge => Res.diverge
      | Res.ok (ChunkRes.out ret _) => Res.ok { ret := ret, file := f, compared := log }
      | Res.ok (ChunkRes.full st1) =>
        let cmpsize := min B (f.fsize - size)
        let log1 := log ++ [(size, cmpsize)]
        if bufm.take cmpsize ≠ st1.buff.take cmpsize then
          let f1 := { f with has_error := true }
          if !f1.sync_failed then Res.ok { ret := 1, file := f1, compared := log1 }
          else check_loop B bufm fuel (size + B) f1 log1 st1
        else check_loop B bufm fuel (size + B) f log1 st1
    else Res.ok { ret := 0, file := f, compared := log }

/-- `File::check_fd(fd)`: both buffers are allocated, the pattern is generated
into `bufm`, and the file is read and compared chunk by chunk. -/
def File.check_fd (B : Nat) (f : File) (fd : Fd) (junk : Nat → Byte)
    (reads : List IoEv) : Res CheckOut :=
  match fill_pattern B f.checksum (malloc junk B) with
  | Res.exit => Res.exit
  | Res.diverge => Res.diverge
  | Res.ok bufm =>
    check_loop B bufm (f.fsize + 1) 0 f []
      { fd := fd, buff := malloc junk B, file_read_size := 0, script := reads }

/-! ## Locking (lines 419-448) -/

/-- `File::trylock`: `pthread_mutex_trylock` answers `EBUSY` for a held mutex
and otherwise takes it and answers `0`. -/
def File.trylock (f : File) : Nat × File :=
  if f.locked then (EBUSY, f) else (0, { f with locked := true })

/-- `File::unlock`: `rc` is the value `pthread_mutex_unlock` returns; a
non-zero value ends the process. -/
def File.unlock (f : File) (rc : Nat) : Res File :=
  if rc ≠ 0 then Res.exit else Res.ok { f with locked := false }

/-! ## `File::check` (lines 386-412) -/

/-- `File::check`: `stored` is the file at `directory->path() + fname`
(`none` when `open` fails). The result is the returned value and the object
afterwards. -/
def File.check (B : Nat) (f : File) (stored : Option (List Byte)) (junk : Nat → Byte)
    (reads : List IoEv) : Res (Nat × File) :=
  if f.has_error then Res.ok (0, f)
  else
    let f1 := f.trylock.2
    match stored with
    | none => Res.exit
    | some content =>
      match File.check_fd B f1 { content := content, pos := 0 } junk reads with
      | Res.exit => Res.exit
      | Res.diverge => Res.diverge
      | Res.ok out =>
        Res.ok (out.ret, { out.file with num_checks := out.file.num_checks + 1 })

/-! ## Writing: `File::fwrite` (lines 98-204) -/

/-- Local state of the write loops of `fwrite`. -/
structure WrState where
  fd : Fd
  file_offset : Nat
  file_end : Bool
  script : List IoEv
deriving DecidableEq

/-- Lines 139-170: the loop `while (buf_offset < BUF_SIZE && !file_end)`. The
boolean of the result is `true` when the loop is left by `goto out`. -/
def fwrite_inner (B fsize : Nat) (buf : List Byte) :
    Nat → Nat → WrState → Res (WrState × Bool)
  | 0, _, _ => Res.diverge
  | fuel + 1, buf_offset, st =>
    if buf_offset < B ∧ st.file_end = false then
      let remaining_buf_len := B - buf_offset
      let trunc : Bool := decide (st.file_offset + remaining_buf_len > fsize)
      let write_len := if trunc then fsize - st.file_offset else remaining_buf_len
      let file_end := if trunc then true else st.file_end
      match sys_write st.fd ((buf.drop buf_offset).take write_len) st.script with
      | (Sum.inl errno, fd, s) =>
        if errno = ENOSPC then
          Res.ok ({ st with fd := fd, file_end := file_end, script := s }, true)
        else Res.exit
      | (Sum.inr written_len, fd, s) =>
        fwrite_inner B fsize buf fuel (buf_offset + written_len)
          { fd := fd, file_offset := st.file_offset + written_len,
            file_end := file_end, script := s }
    else Res.ok (st, false)

/-- Lines 137-173: the loop `while (file_offset < fsize && !file_end)`. -/
def fwrite_outer (B fsize : Nat) (buf : List Byte) : Nat → WrState → Res WrState
  | 0, _ => Res.diverge
  | fuel + 1, st =>
    if st.file_offset < fsize ∧ st.file_end = false then
      match fwrite_inner B fsize buf (st.script.length + 2) 0 st with
      | Res.exit => Res.exit
      | Res.diverge => Res.diverge
      | Res.ok (st1, true) => Res.ok st1
      | Res.ok (st1, false) => fwrite_outer B fsize buf fuel st1
    else Res.ok st

/-- What the world supplies to one call of `fwrite`. -/
structure WriteEnv where
  immediate_check : Bool
  junk : Nat → Byte
  writes : List IoEv
  fdatasync_rc : Nat
  reads : List IoEv
  close_rc : Nat

/-- `File::fwrite`: `stored` is the file at `directory->path() + fname`
(`none` when `open` fails). The result is the object and the stored file
afterwards. -/
def File.fwrite (B : Nat) (f : File) (stored : Option (List Byte)) (env : WriteEnv) :
    Res (File × List Byte) :=
  match stored with
  | none => Res.exit
  | some content =>
    match fill_pattern B f.checksum (malloc env.junk B) with
    | Res.exit => Res.exit
    | Res.diverge => Res.diverge
    | Res.ok buf =>
      match fwrite_outer B f.fsize buf (f.fsize + 1)
          { fd := { content := content, pos := 0 }, file_offset := 0,
            file_end := false, script := env.writes } with
      | Res.exit => Res.exit
      | Res.diverge => Res.diverge
      | Res.ok st =>
        let f1 := if env.fdatasync_rc ≠ 0 then { f with sync_failed := true } else f
        let checked : Res File :=
          if env.immediate_check then
            match File.check_fd B f1 { st.fd with pos := 0 } env.junk env.reads with
            | Res.exit => Res.exit
            | Res.diverge => Res.diverge
            | Res.ok out => Res.ok out.file
          else Res.ok f1
        match checked with
        | Res.exit => Res.exit
        | Res.diverge => Res.diverge
        | Res.ok f2 =>
          let f3 := if env.close_rc ≠ 0 then { f2 with sync_failed := true } else f2
          Res.ok (f3, st.fd.content)

/-! ## Destruction: `File::~File` (lines 210-239) -/

/-- What the destructor acts on: the state `dir` of the owning directory (its
tracking structure, of a type `δ` this file does not look into), the stored
files by path, and the object itself. -/
structure World (δ : Type) where
  dir : δ
  storage : List Char → Option (List Byte)
  file : File

/-- The call `::unlink(path)`: an existing file is removed; for a missing one
the call fails with `ENOENT`. -/
def sys_unlink (storage : List Char → Option (List Byte)) (path : List Char) :
    Option Nat × (List Char → Option (List Byte)) :=
  match storage path with
  | none => (some ENOENT, storage)
  | some _ => (none, fun p => if p = path then none else storage p)

/-- `File::~File`: `path` and `remove_file` are the two methods of `Dir` the
destructor calls, `unlock_rc` is what `pthread_mutex_unlock` returns. -/
def File.destroy {δ : Type} (path : δ → List Char) (remove_file : δ → File → δ)
    (w : World δ) (unlock_rc : Nat) : Res (World δ) :=
  if w.file.has_error then
    match w.file.unlock unlock_rc with
    | Res.exit => Res.exit
    | Res.diverge => Res.diverge
    | Res.ok f => Res.ok { w with file := f }
  else
    let dir := remove_file w.dir w.file
    match sys_unlink w.storage (path dir ++ w.file.fname) with
    | (some errno, storage) =>
      if errno ≠ ENOENT then Res.exit
      else
        match w.file.unlock unlock_rc with
        | Res.exit => Res.exit
        | Res.diverge => Res.diverge
        | Res.ok f => Res.ok { dir := dir, storage := storage, file := f }
    | (none, storage) =>
      match w.file.unlock unlock_rc with
      | Res.exit => Res.exit
      | Res.diverge => Res.diverge
      | Res.ok f => Res.ok { dir := dir, storage := storage, file := f }

/-! ## List linkage: `File::link` and `File::unlink` (lines 251-266) -/

/-- The `File` objects in memory, by address. -/
abbrev Heap := Nat → File

/-- Assignment to the object at address `a`. -/
def Heap.set (h : Heap) (a : Nat) (f : File) : Heap :=
  fun x => if x = a then f else h x

/-- `this->link(file)`, statement by statement. -/
def File.link (h : Heap) (this : Nat) (file : Option Nat) : Heap :=
  let h1 := h.set this { h this with next := file }
  let h2 :=
    match (h1 this).next with
    | some nx =>
      let h1a := h1.set this { h1 this with prev := (h1 nx).prev }
      h1a.set nx { h1a nx with prev := some this }
    | none => h1
  match (h2 this).prev with
  | some p => h2.set p { h2 p with next := some this }
  | none => h2

/-- `this->unlink()`, statement by statement. -/
def File.unlink (h : Heap) (this : Nat) : Heap :=
  let h1 :=
    match (h this).prev with
    | some p => h.set p { h p with next := (h this).next }
    | none => h
  let h2 :=
    match (h1 this).next with
    | some nx => h1.set nx { h1 nx with prev := (h1 this).prev }
    | none => h1
  h2.set this { h2 this with prev := none, next := none }

/-- Well-formed linkage: `x.next.prev = x` and `x.prev.next = x` wherever
defined. -/
def Heap.wf (h : Heap) : Prop :=
  (∀ x y, (h x).next = some y → (h y).prev = some x) ∧
  (∀ x y, (h x).prev = some y → (h y).next = some x)

/-! ## Reference definitions used by the theorems -/

/-- The byte the pattern has at index `i`: the seed, repeated. -/
def pattern_byte (seed : List Byte) (i : Nat) : Byte := seed.getD (i % seed.length) 0

/-- The first `n` bytes of the repeated seed. -/
def pattern (seed : List Byte) (n : Nat) : List Byte := (List.range n).map (pattern_byte seed)

/-- What the comparison loop of `check_fd` amounts to: the `m` chunks of `B`
bytes that start at offset `size` of the stored file are compared in turn with
the first `B` bytes of `bufm`; a differing chunk sets `has_error` and, unless
`sync_failed` is set, ends the pass with `1`; after the last chunk the pass
ends with `tail_ret`. -/
def compare_chunks (B : Nat) (bufm content : List Byte) (tail_ret : Nat) :
    Nat → Nat → File → List (Nat × Nat) → CheckOut
  | 0, _, f, log => { ret := tail_ret, file := f, compared := log }
  | m + 1, size, f, log =>
    let log1 := log ++ [(size, B)]
    if bufm.take B ≠ (content.drop size).take B then
      let f1 := { f with has_error := true }
      if !f1.sync_failed then { ret := 1, file := f1, compared := log1 }
      else compare_chunks B bufm content tail_ret m (size + B) f1 log1
    else compare_chunks B bufm content tail_ret m (size + B) f log1

/-! ## Concrete objects -/

/-- A freshly constructed, locked object: identifier `0x1234abcd`, size
`2^10 + 5`. -/
def ex_file : File :=
  { prev := none, next := none, num_checks := 0, sync_failed := false, has_error := false,
    in_delete := false, fsize := 1029, id_value := 0x1234abcd,
    checksum := [0xcd, 0xab, 0x34, 0x12],
    fname := ['1', '2', '3', '4', 'a', 'b', 'c', 'd'], locked := true }

/-- The same object after a corruption has been found. -/
def ex_file_err : File := { ex_file with has_error := true }

/-- A world in which every call succeeds and transfers all it is asked to. -/
def ex_env : WriteEnv :=
  { immediate_check := true, junk := fun _ => 0, writes := [], fdatasync_rc := 0,
    reads := [], close_rc := 0 }

/-- A world in which the first `write` takes one byte only. -/
def ex_env_short : WriteEnv :=
  { immediate_check := false, junk := fun _ => 0, writes := [IoEv.bytes 1],
    fdatasync_rc := 0, reads := [], close_rc := 0 }

/-- A directory (a list of tracked addresses) with the stored file of
`ex_file_err`. -/
def ex_world : World (List Nat) :=
  { dir := [7],
    storage := fun p => if p = ex_file.fname then some [0xcd, 0xab] else none,
    file := ex_file_err }

/-- Three objects at addresses 1, 2, 3: 1 and 2 are linked, 3 is detached. -/
def ex_heap : Heap := fun a =>
  { prev := if a = 2 then some 1 else none,
    next := if a = 1 then some 2 else none,
    num_checks := 0, sync_failed := false, has_error := false, in_delete := false,
    fsize := 1029, id_value := a, checksum := [], fname := [], locked := false }

/-! ## Reading: the loops of `check_fd` -/

theorem sys_read_cases (fd : Fd) (req : Nat) (script : List IoEv) :
    (∃ s, sys_read fd req script = (none, fd, s) ∧ no_err script = false) ∨
    (∃ c s, c ≤ req ∧
      sys_read fd req script =
        (some ((fd.content.drop fd.pos).take c),
          { content := fd.content, pos := fd.pos + ((fd.content.drop fd.pos).take c).length }, s) ∧
      (no_err script = true → no_err s = true) ∧
      (progress script = true → progress s = true) ∧
      (progress script = true → 0 < req → 0 < c)) := by
  cases script with
  | nil =>
    right
    exact ⟨req, [], le_rfl, rfl, fun h => h, fun h => h, fun _ h => h⟩
  | cons e s =>
    cases e with
    | err n =>
      left
      exact ⟨s, rfl, rfl⟩
    | bytes n =>
      right
      refine ⟨min req n, s, Nat.min_le_left _ _, rfl, ?_, ?_, ?_⟩
      · intro h; simpa [no_err] using h
      · intro h; simp [progress] at h; exact h.2
      · intro h hr; simp [progress] at h; omega

theorem memcpy_length (dst src : List Byte) (off : Nat) (h : off + src.length ≤ dst.length) :
    (memcpy dst off src).length = dst.length := by
  simp [memcpy]
  omega

theorem take_length_take (l : List Byte) (c : Nat) : l.take (l.take c).length = l.take c := by
  rw [List.length_take]
  rcases Nat.le_total c l.length with h | h
  · rw [Nat.min_eq_left h]
  · rw [Nat.min_eq_right h, List.take_of_length_le h, List.take_of_length_le (le_refl _)]

theorem read_chunk_spec (B fsize : Nat) (content : List Byte) (size : Nat) :
    ∀ (fuel o : Nat) (st : RdState), o ≤ B → B < fuel + o →
      st.fd = { content := content, pos := size + o } → st.file_read_size = size + o →
      st.buff.length = B → st.buff.take o = (content.drop size).take o →
      size + o ≤ content.length → size + o ≤ fsize →
      (∃ st1, read_chunk B fsize fuel o st = Res.ok (ChunkRes.full st1) ∧
        st1.fd = { content := content, pos := size + B } ∧
        st1.file_read_size = size + B ∧
        st1.buff = (content.drop size).take B ∧ st1.buff.length = B ∧
        size + B ≤ content.length ∧ size + B ≤ fsize ∧
        (no_err st.script = true → no_err st1.script = true) ∧
        (progress st.script = true → progress st1.script = true)) ∨
      (∃ r st1, read_chunk B fsize fuel o st = Res.ok (ChunkRes.out r st1) ∧
        (no_err st.script = true → r = 0) ∧
        (no_err st.script = true → progress st.script = true →
          ¬ (size + B ≤ content.length ∧ size + B ≤ fsize))) := by
  intro fuel
  induction fuel with
  | zero => intro o st ho hf; omega
  | succ fuel ih =>
    intro o st ho hf hfd hfrs hlen htake hL hF
    unfold read_chunk
    by_cases hlt : o < B
    · rw [if_pos hlt]
      rcases sys_read_cases st.fd (B - o) st.script with ⟨s, hs, hne⟩ | ⟨c, s, hc, hs, h1, h2, h3⟩
      · right
        rw [hs]
        refine ⟨1, _, rfl, ?_, ?_⟩
        · intro h; rw [h] at hne; cases hne
        · intro h; rw [h] at hne; cases hne
      · rw [hs]
        simp only [hfd]
        have hdl : ((content.drop (size + o)).take c).length = min c (content.length - (size + o)) := by
          simp [List.length_take, List.length_drop]
        by_cases hz : ((content.drop (size + o)).take c).length = 0
        · right
          rw [if_pos hz]
          refine ⟨0, _, rfl, fun _ => rfl, ?_⟩
          intro _ hp
          have := h3 hp (by omega)
          omega
        · rw [if_neg hz]
          by_cases hbig : st.file_read_size + ((content.drop (size + o)).take c).length > fsize
          · right
            rw [if_pos hbig]
            refine ⟨0, _, rfl, fun _ => rfl, ?_⟩
            intro _ _
            omega
          · rw [if_neg hbig]
            have hih := ih (o + ((content.drop (size + o)).take c).length)
              { fd := { content := content,
                        pos := size + o + ((content.drop (size + o)).take c).length },
                buff := memcpy st.buff o ((content.drop (size + o)).take c),
                file_read_size := st.file_read_size + ((content.drop (size + o)).take c).length,
                script := s }
              (by omega) (by omega) (by simp; omega) (by simp; omega)
              (by rw [memcpy_length]; exact hlen; omega)
              (by
                unfold memcpy
                have hl1 : (st.buff.take o).length = o := by
                  rw [List.length_take]; omega
                rw [List.append_assoc, List.take_append_eq_append_take, hl1]
                rw [List.take_of_length_le (by omega : (List.take o st.buff).length ≤ _)]
                rw [Nat.add_sub_cancel_left, List.take_append_of_le_length (le_refl _)]
                rw [List.take_length, htake, List.take_add, List.drop_drop]
                congr 1
                exact (take_length_take _ _).symm)
              (by omega) (by omega)
            rcases hih with ⟨st1, e1, e2, e3, e4, e5, e6, e7, e8, e9⟩ | ⟨r, st1, e1, e2, e3⟩
            · left
              exact ⟨st1, e1, e2, e3, e4, e5, e6, e7, fun h => e8 (h1 h), fun h => e9 (h2 h)⟩
            · right
              exact ⟨r, st1, e1, fun h => e2 (h1 h), fun h h' => e3 (h1 h) (h2 h')⟩
    · rw [if_neg hlt]
      have hoB : o = B := by omega
      subst hoB
      left
      refine ⟨st, rfl, hfd, hfrs, ?_, hlen, hL, hF, fun h => h, fun h => h⟩
      rw [← htake, List.take_of_length_le (by omega)]

theorem exists_max_chunks (B X size : Nat) (hB : 0 < B) (h : size + B ≤ X) :
    ∃ m0, size + (m0 + 1) * B ≤ X ∧ ¬ (size + (m0 + 1) * B + B ≤ X) := by
  have h1 : (X - size) / B * B ≤ X - size := Nat.div_mul_le_self _ _
  have h2 : X - size < (X - size) / B * B + B := Nat.lt_div_mul_add hB
  have h3 : 1 ≤ (X - size) / B := (Nat.le_div_iff_mul_le hB).2 (by omega)
  obtain ⟨m0, hm0⟩ : ∃ m0, (X - size) / B = m0 + 1 := ⟨(X - size) / B - 1, by omega⟩
  rw [hm0] at h1 h2
  exact ⟨m0, by omega, by omega⟩

theorem check_loop_spec (B : Nat) (hB : 0 < B) (bufm content : List Byte) :
    ∀ (fuel size : Nat) (f : File) (log : List (Nat × Nat)) (st : RdState),
      f.fsize < fuel + size →
      st.fd = { content := content, pos := size } → st.file_read_size = size →
      st.buff.length = B → size ≤ content.length → size ≤ f.fsize →
      ∃ m r, size + m * B ≤ content.length ∧ size + m * B ≤ f.fsize ∧
        check_loop B bufm fuel size f log st
          = Res.ok (compare_chunks B bufm content r m size f log) ∧
        (no_err st.script = true → r = 0) ∧
        (no_err st.script = true → progress st.script = true →
          ¬ (size + m * B + B ≤ content.length ∧ size + m * B + B ≤ f.fsize)) := by
  intro fuel
  induction fuel with
  | zero => intro size f log st hf; omega
  | succ fuel ih =>
    intro size f log st hf hfd hfrs hlen hL hF
    unfold check_loop
    by_cases hlt : size < f.fsize
    · rw [if_pos hlt]
      rcases read_chunk_spec B f.fsize content size (B + 1) 0 st (Nat.zero_le _) (by omega)
          (by simpa using hfd) (by simpa using hfrs) hlen (by simp) (by omega) (by omega) with
        ⟨st1, e1, e2, e3, e4, e5, e6, e7, e8, e9⟩ | ⟨r, st1, e1, e2, e3⟩
      · rw [e1]
        have hcmp : min B (f.fsize - size) = B := by omega
        have hbuf : st1.buff.take B = (content.drop size).take B := by
          rw [e4, List.take_take, Nat.min_self]
        simp only [hcmp, hbuf]
        by_cases hmis : bufm.take B ≠ (content.drop size).take B
        · rw [if_pos hmis]
          by_cases hsf : f.sync_failed = true
          swap
          · have hsf : f.sync_failed = false := by simpa using hsf
            obtain ⟨m0, hm1, hm2⟩ := exists_max_chunks B (min content.length f.fsize) size hB
              (by omega)
            refine ⟨m0 + 1, 0, by omega, by omega, ?_, fun _ => rfl, fun _ _ => by omega⟩
            simp [compare_chunks, hmis, hsf]
          · obtain ⟨m, r, i1, i2, i3, i4, i5⟩ := ih (size + B) { f with has_error := true }
              (log ++ [(size, B)]) st1 (by simp; omega) e2 e3 e5 e6 e7
            have hsm : (m + 1) * B = m * B + B := Nat.succ_mul m B
            refine ⟨m + 1, r, by simp at i2; omega, by simp at i2; omega, ?_,
              fun h => i4 (e8 h), fun h h' => ?_⟩
            · have hnot : ¬ ((!({ f with has_error := true } : File).sync_failed) = true) := by
                simp [hsf]
              rw [if_neg hnot, i3]
              conv_rhs => unfold compare_chunks
              simp only []
              rw [if_pos hmis, if_neg hnot]
            · have := i5 (e8 h) (e9 h')
              simp at this ⊢
              omega
        · rw [if_neg hmis]
          obtain ⟨m, r, i1, i2, i3, i4, i5⟩ := ih (size + B) f
            (log ++ [(size, B)]) st1 (by omega) e2 e3 e5 e6 e7
          have hsm : (m + 1) * B = m * B + B := Nat.succ_mul m B
          refine ⟨m + 1, r, by omega, by omega, ?_, fun h => i4 (e8 h), fun h h' => ?_⟩
          · rw [i3]
            simp [compare_chunks, hmis]
          · have := i5 (e8 h) (e9 h')
            simp at this ⊢
            omega
      · rw [e1]
        refine ⟨0, r, by omega, by omega, ?_, e2, fun h h' => ?_⟩
        · simp [compare_chunks]
        · have := e3 h h'
          simp at this ⊢
          omega
    · rw [if_neg hlt]
      refine ⟨0, 0, by omega, by omega, ?_, fun _ => rfl, fun _ _ => by omega⟩
      simp [compare_chunks]

theorem fill_loop_terminates (B : Nat) :
    ∀ (fuel : Nat) (buf : List Byte) (size : Nat), 0 < size → 0 < fuel → B < fuel + size →
      ∃ pat, fill_loop B fuel buf size = Res.ok pat := by
  intro fuel
  induction fuel with
  | zero =>
    intro buf size hs h0 hf
    omega
  | succ fuel ih =>
    intro buf size hs _ hf
    unfold fill_loop
    by_cases hlt : size < B
    · rw [if_pos hlt]
      exact ih _ _ (by omega) (by omega) (by omega)
    · rw [if_neg hlt]
      exact ⟨buf, rfl⟩

theorem fill_pattern_terminates (B : Nat) (seed buf : List Byte) (h : seed ≠ []) :
    ∃ pat, fill_pattern B seed buf = Res.ok pat := by
  unfold fill_pattern
  have : 0 < seed.length := List.length_pos.2 h
  exact fill_loop_terminates B _ _ _ this (by omega) (by omega)

theorem malloc_length (junk : Nat → Byte) (n : Nat) : (malloc junk n).length = n := by
  simp [malloc]

theorem check_fd_spec (B : Nat) (hB : 0 < B) (f : File) (content : List Byte)
    (junk : Nat → Byte) (reads : List IoEv) (bufm : List Byte)
    (hpat : fill_pattern B f.checksum (malloc junk B) = Res.ok bufm) :
    ∃ m r, m * B ≤ content.length ∧ m * B ≤ f.fsize ∧
      File.check_fd B f { content := content, pos := 0 } junk reads
        = Res.ok (compare_chunks B bufm content r m 0 f []) ∧
      (no_err reads = true → r = 0) ∧
      (no_err reads = true → progress reads = true →
        ¬ (m * B + B ≤ content.length ∧ m * B + B ≤ f.fsize)) := by
  unfold File.check_fd
  rw [hpat]
  obtain ⟨m, r, h1, h2, h3, h4, h5⟩ := check_loop_spec B hB bufm content (f.fsize + 1) 0 f []
    { fd := { content := content, pos := 0 }, buff := malloc junk B, file_read_size := 0,
      script := reads } (by omega) rfl rfl (malloc_length _ _) (Nat.zero_le _) (Nat.zero_le _)
  refine ⟨m, r, by omega, by omega, h3, h4, fun a b => ?_⟩
  have := h5 a b
  simp at this ⊢
  omega

theorem compare_chunks_file (B : Nat) (bufm content : List Byte) (r : Nat) :
    ∀ (m size : Nat) (f : File) (log : List (Nat × Nat)),
      (compare_chunks B bufm content r m size f log).file = f ∨
      (compare_chunks B bufm content r m size f log).file = { f with has_error := true } := by
  intro m
  induction m with
  | zero => intro size f log; left; rfl
  | succ m ih =>
    intro size f log
    unfold compare_chunks
    simp only []
    split_ifs with h1 h2
    · right; rfl
    · right
      rcases ih (size + B) { f with has_error := true } (log ++ [(size, B)]) with h | h <;>
        rw [h]
    · exact ih _ _ _

theorem compare_chunks_compared (B : Nat) (bufm content : List Byte) (r : Nat) :
    ∀ (m size : Nat) (f : File) (log : List (Nat × Nat)),
      ∀ c ∈ (compare_chunks B bufm content r m size f log).compared,
        c ∈ log ∨ (c.2 = B ∧ (∃ j, c.1 = size + j * B) ∧ c.1 + B ≤ size + m * B) := by
  intro m
  induction m with
  | zero => intro size f log c hc; left; exact hc
  | succ m ih =>
    intro size f log c
    have hsm : (m + 1) * B = m * B + B := Nat.succ_mul m B
    have hstep : ∀ f1 : File,
        c ∈ (compare_chunks B bufm content r m (size + B) f1 (log ++ [(size, B)])).compared →
        c ∈ log ∨ (c.2 = B ∧ (∃ j, c.1 = size + j * B) ∧ c.1 + B ≤ size + (m + 1) * B) := by
      intro f1 hc
      rcases ih (size + B) f1 (log ++ [(size, B)]) c hc with h | ⟨h1, ⟨j, hj⟩, h3⟩
      · rw [List.mem_append] at h
        rcases h with h | h
        · left; exact h
        · right
          simp at h
          subst h
          exact ⟨rfl, ⟨0, by simp⟩, by simp; omega⟩
      · right
        exact ⟨h1, ⟨j + 1, by rw [hj, Nat.succ_mul]; omega⟩, by omega⟩
    unfold compare_chunks
    simp only []
    split_ifs with h1 h2
    · intro hc
      simp only [List.mem_append] at hc
      rcases hc with h | h
      · left; exact h
      · right
        simp at h
        subst h
        exact ⟨rfl, ⟨0, by simp⟩, by simp; omega⟩
    · exact hstep _
    · exact hstep _

theorem chunk_of_take (content : List Byte) (size B n : Nat) (h : size + B ≤ n) :
    ((content.take n).drop size).take B = (content.drop size).take B := by
  rw [List.drop_take, List.take_take, Nat.min_eq_left (by omega)]

theorem compare_chunks_congr (B : Nat) (bufm c1 c2 : List Byte) (r : Nat) :
    ∀ (m size : Nat) (f : File) (log : List (Nat × Nat)),
      c1.take (size + m * B) = c2.take (size + m * B) →
      compare_chunks B bufm c1 r m size f log = compare_chunks B bufm c2 r m size f log := by
  intro m
  induction m with
  | zero => intro size f log _; rfl
  | succ m ih =>
    intro size f log h
    have hsm : (m + 1) * B = m * B + B := Nat.succ_mul m B
    have hchunk : (c1.drop size).take B = (c2.drop size).take B := by
      rw [← chunk_of_take c1 size B (size + (m + 1) * B) (by omega),
        ← chunk_of_take c2 size B (size + (m + 1) * B) (by omega), h]
    have hnext : c1.take (size + B + m * B) = c2.take (size + B + m * B) := by
      have e : size + B + m * B = size + (m + 1) * B := by omega
      rw [e]; exact h
    unfold compare_chunks
    simp only [hchunk]
    rw [ih (size + B) _ _ hnext, ih (size + B) _ _ hnext]

/-- C10: `check_fd` never compares a trailing partial chunk. For every object,
every stored file and every read script without errors (and without empty
reads before end of file), `check_fd` returns, every `memcmp` it executes has
length `BUF_SIZE` and covers a chunk `[j * BUF_SIZE, (j + 1) * BUF_SIZE)` lying
within the first `min (file length) fsize` bytes; any other stored file with
the same number of such chunks and the same bytes in them gives the same
result, the same object state and the same comparisons; and when
`fsize < BUF_SIZE` the result is `0`, the object is unchanged and nothing is
compared. -/
theorem check_fd_full_chunks_only (f : File) (content : List Byte) (junk : Nat → Byte)
    (reads : List IoEv) (hseed : f.checksum ≠ [])
    (hne : no_err reads = true) (hpr : progress reads = true) :
    ∃ out, File.check_fd BUF_SIZE f { content := content, pos := 0 } junk reads = Res.ok out ∧
      (∀ c ∈ out.compared, c.2 = BUF_SIZE ∧ BUF_SIZE ∣ c.1 ∧
        c.1 + BUF_SIZE ≤ min content.length f.fsize) ∧
      (∀ (content2 : List Byte) (reads2 : List IoEv),
        no_err reads2 = true → progress reads2 = true →
        min content2.length f.fsize / BUF_SIZE = min content.length f.fsize / BUF_SIZE →
        content2.take (min content.length f.fsize / BUF_SIZE * BUF_SIZE)
          = content.take (min content.length f.fsize / BUF_SIZE * BUF_SIZE) →
        File.check_fd BUF_SIZE f { content := content2, pos := 0 } junk reads2 = Res.ok out) ∧
      (f.fsize < BUF_SIZE → out.ret = 0 ∧ out.file = f ∧ out.compared = []) := by
  have hB : 0 < BUF_SIZE := by decide
  obtain ⟨bufm, hpat⟩ := fill_pattern_terminates BUF_SIZE f.checksum (malloc junk BUF_SIZE) hseed
  obtain ⟨m, r, h1, h2, h3, h4, h5⟩ := check_fd_spec BUF_SIZE hB f content junk reads bufm hpat
  have hr : r = 0 := h4 hne
  subst hr
  have hmax := h5 hne hpr
  have hm : min content.length f.fsize / BUF_SIZE = m :=
    Nat.div_eq_of_lt_le (by omega) (by rw [Nat.succ_mul]; omega)
  refine ⟨_, h3, ?_, ?_, ?_⟩
  · intro c hc
    rcases compare_chunks_compared _ _ _ _ _ _ _ _ c hc with h | ⟨e1, ⟨j, e2⟩, e3⟩
    · cases h
    · refine ⟨e1, ⟨j, by rw [e2]; simp [Nat.mul_comm]⟩, by omega⟩
  · intro content2 reads2 hne2 hpr2 hdiv htake
    obtain ⟨m2, r2, g1, g2, g3, g4, g5⟩ :=
      check_fd_spec BUF_SIZE hB f content2 junk reads2 bufm hpat
    have hr2 : r2 = 0 := g4 hne2
    subst hr2
    have hmax2 := g5 hne2 hpr2
    have hm2 : min content2.length f.fsize / BUF_SIZE = m2 :=
      Nat.div_eq_of_lt_le (by omega) (by rw [Nat.succ_mul]; omega)
    have : m2 = m := by rw [← hm2, ← hm, hdiv]
    subst this
    rw [g3]
    congr 1
    apply compare_chunks_congr
    rw [hm] at htake
    simpa using htake
  · intro hlt
    have hm0 : m = 0 := by
      rcases Nat.eq_zero_or_pos m with h | h
      · exact h
      · have : BUF_SIZE ≤ m * BUF_SIZE := Nat.le_mul_of_pos_left _ h
        omega
    subst hm0
    exact ⟨rfl, rfl, rfl⟩

theorem check_fd_full_chunks_only_witness :
    ex_file.checksum ≠ [] ∧ no_err [IoEv.bytes 2] = true ∧ progress [IoEv.bytes 2] = true ∧
    ∃ out, File.check_fd BUF_SIZE ex_file { content := [1, 2, 3], pos := 0 } (fun _ => 0)
        [IoEv.bytes 2] = Res.ok out ∧
      (∀ c ∈ out.compared, c.2 = BUF_SIZE ∧ BUF_SIZE ∣ c.1 ∧
        c.1 + BUF_SIZE ≤ min ([1, 2, 3] : List Byte).length ex_file.fsize) ∧
      (∀ (content2 : List Byte) (reads2 : List IoEv),
        no_err reads2 = true → progress reads2 = true →
        min content2.length ex_file.fsize / BUF_SIZE
          = min ([1, 2, 3] : List Byte).length ex_file.fsize / BUF_SIZE →
        content2.take (min ([1, 2, 3] : List Byte).length ex_file.fsize / BUF_SIZE * BUF_SIZE)
          = ([1, 2, 3] : List Byte).take
              (min ([1, 2, 3] : List Byte).length ex_file.fsize / BUF_SIZE * BUF_SIZE) →
        File.check_fd BUF_SIZE ex_file { content := content2, pos := 0 } (fun _ => 0) reads2
          = Res.ok out) ∧
      (ex_file.fsize < BUF_SIZE → out.ret = 0 ∧ out.file = ex_file ∧ out.compared = []) :=
  ⟨by decide, by decide, by decide,
    check_fd_full_chunks_only ex_file [1, 2, 3] (fun _ => 0) [IoEv.bytes 2]
      (by decide) (by decide) (by decide)⟩

/-! ## Destruction and pattern generation -/

/-- C4: refusal on error. For an object with `has_error = true` the destructor
removes nothing: when `pthread_mutex_unlock` succeeds it returns with the
directory state and every stored file unchanged and the object unchanged apart
from its lock, which is released; when the unlock fails the process exits. -/
theorem destroy_refuses {δ : Type} (path : δ → List Char) (remove_file : δ → File → δ)
    (w : World δ) (unlock_rc : Nat) (herr : w.file.has_error = true) :
    File.destroy path remove_file w unlock_rc =
      if unlock_rc = 0 then
        Res.ok { dir := w.dir, storage := w.storage, file := { w.file with locked := false } }
      else Res.exit := by
  unfold File.destroy File.unlock
  rw [if_pos herr]
  by_cases h : unlock_rc = 0 <;> simp [h]

theorem destroy_refuses_witness :
    ex_world.file.has_error = true ∧
    File.destroy (fun _ => []) (fun (d : List Nat) _ => d.tail) ex_world 0 =
      if 0 = 0 then
        Res.ok { dir := ex_world.dir, storage := ex_world.storage,
                 file := { ex_world.file with locked := false } }
      else Res.exit :=
  ⟨rfl, destroy_refuses (fun _ => []) (fun (d : List Nat) _ => d.tail) ex_world 0 rfl⟩

theorem pattern_length (seed : List Byte) (n : Nat) : (pattern seed n).length = n := by
  simp [pattern]

theorem pattern_byte_add (seed : List Byte) (a i : Nat) (h : seed.length ∣ a) :
    pattern_byte seed (a + i) = pattern_byte seed i := by
  obtain ⟨c, rfl⟩ := h
  simp [pattern_byte, Nat.mul_add_mod]

theorem pattern_add (seed : List Byte) (a b : Nat) (h : seed.length ∣ a) :
    pattern seed (a + b) = pattern seed a ++ pattern seed b := by
  unfold pattern
  rw [List.range_add, List.map_append, List.map_map]
  congr 1
  apply List.map_congr_left
  intro i _
  simp [pattern_byte_add seed a i h]

theorem pattern_take (seed : List Byte) (n m : Nat) (h : m ≤ n) :
    (pattern seed n).take m = pattern seed m := by
  unfold pattern
  rw [← List.map_take, List.take_range, Nat.min_eq_left h]

theorem pattern_seed (seed : List Byte) : pattern seed seed.length = seed := by
  apply List.ext_getElem
  · simp [pattern]
  · intro i h1 h2
    simp [pattern, pattern_byte, Nat.mod_eq_of_lt h2, List.getElem?_eq_getElem h2]

theorem fill_loop_spec (B : Nat) (seed : List Byte) (b : Nat) (hB : B = 2 ^ b) :
    ∀ (fuel : Nat) (buf : List Byte) (s : Nat), s ≤ b → b < fuel + s →
      buf.length = B → seed.length ∣ 2 ^ s → buf.take (2 ^ s) = pattern seed (2 ^ s) →
      fill_loop B fuel buf (2 ^ s) = Res.ok (pattern seed B) := by
  intro fuel
  induction fuel with
  | zero => intro buf s hs hf; omega
  | succ fuel ih =>
    intro buf s hs hf hlen hdvd htake
    unfold fill_loop
    by_cases hlt : 2 ^ s < B
    · rw [if_pos hlt]
      have hsb : s < b := by
        rcases Nat.lt_or_ge s b with h | h
        · exact h
        · have : s = b := le_antisymm hs h
          subst this; omega
      have h2 : 2 ^ s * 2 = 2 ^ (s + 1) := (pow_succ 2 s)
      have hle : 2 ^ (s + 1) ≤ B := by
        rw [hB]; exact Nat.pow_le_pow_right (by decide) hsb
      rw [h2]
      have htl : (buf.take (2 ^ s)).length = 2 ^ s := by
        rw [List.length_take]; omega
      apply ih _ (s + 1) hsb (by omega)
      · rw [memcpy_length]
        · exact hlen
        · omega
      · exact Dvd.dvd.mul_right hdvd 2 |> fun h => by rwa [h2] at h
      · unfold memcpy
        rw [htl]
        have hl2 : (buf.take (2 ^ s) ++ buf.take (2 ^ s)).length = 2 ^ (s + 1) := by
          rw [List.length_append, htl]; omega
        rw [List.take_append_of_le_length (by omega), List.take_of_length_le (by omega), htake]
        rw [← h2, Nat.mul_two, pattern_add _ _ _ hdvd]
    · rw [if_neg hlt]
      have : 2 ^ s = B := by
        have : 2 ^ s ≤ B := by rw [hB]; exact Nat.pow_le_pow_right (by decide) hs
        omega
      rw [this] at htake
      rw [← htake, List.take_of_length_le (by omega)]

theorem fill_pattern_spec (B b k : Nat) (seed buf : List Byte) (hB : B = 2 ^ b)
    (hk : seed.length = 2 ^ k) (hkb : k ≤ b) (hlen : buf.length = B) :
    fill_pattern B seed buf = Res.ok (pattern seed B) := by
  unfold fill_pattern
  have hKB : 2 ^ k ≤ B := by rw [hB]; exact Nat.pow_le_pow_right (by decide) hkb
  rw [hk]
  apply fill_loop_spec B seed b hB (B + 1) _ k hkb
  · have : b < 2 ^ b := Nat.lt_two_pow b
    omega
  · rw [memcpy_length]
    · exact hlen
    · simp; omega
  · rw [hk]
  · unfold memcpy
    simp only [List.take_zero, List.nil_append, Nat.zero_add]
    rw [List.take_append_of_le_length (by omega), List.take_of_length_le (by omega)]
    rw [← hk, pattern_seed]

theorem BUF_SIZE_eq : BUF_SIZE = 2 ^ 20 := by decide

/-- C6: pattern generation. For a seed of `2 ^ k` bytes, `k ≤ 20`, the doubling
loop started on any buffer of `BUF_SIZE` bytes terminates with a buffer of
exactly `BUF_SIZE` bytes whose byte `i` is `seed[i mod 2 ^ k]`; the result is
the same whatever the buffer held before (the buffer `buf` of `fwrite` and the
buffer `bufm` of `check_fd` are filled by the same statements), so it is a
function of the seed alone. -/
theorem fill_pattern_doubling (seed buf : List Byte) (k : Nat)
    (hk : seed.length = 2 ^ k) (hkb : k ≤ 20) (hlen : buf.length = BUF_SIZE) :
    ∃ pat, fill_pattern BUF_SIZE seed buf = Res.ok pat ∧ pat.length = BUF_SIZE ∧
      (∀ i, i < BUF_SIZE → pat[i]? = seed[i % 2 ^ k]?) ∧
      (∀ buf2 : List Byte, buf2.length = BUF_SIZE →
        fill_pattern BUF_SIZE seed buf2 = Res.ok pat) := by
  refine ⟨pattern seed BUF_SIZE, fill_pattern_spec _ 20 k _ _ BUF_SIZE_eq hk hkb hlen,
    pattern_length _ _, ?_, ?_⟩
  · intro i hi
    have hpos : 0 < 2 ^ k := Nat.pow_pos (by decide)
    have hm : i % 2 ^ k < seed.length := by rw [hk]; exact Nat.mod_lt _ hpos
    simp [pattern, hi, pattern_byte, hk, List.getD_eq_getElem _ _ hm, List.getElem?_eq_getElem hm]
  · intro buf2 h2
    exact fill_pattern_spec _ 20 k _ _ BUF_SIZE_eq hk hkb h2

theorem fill_pattern_doubling_witness :
    ([0xde, 0xad, 0xbe, 0xef] : List Byte).length = 2 ^ 2 ∧ 2 ≤ 20 ∧
    (List.replicate BUF_SIZE (0 : Byte)).length = BUF_SIZE ∧
    ∃ pat, fill_pattern BUF_SIZE [0xde, 0xad, 0xbe, 0xef] (List.replicate BUF_SIZE 0)
        = Res.ok pat ∧ pat.length = BUF_SIZE ∧
      (∀ i, i < BUF_SIZE → pat[i]? = ([0xde, 0xad, 0xbe, 0xef] : List Byte)[i % 2 ^ 2]?) ∧
      (∀ buf2 : List Byte, buf2.length = BUF_SIZE →
        fill_pattern BUF_SIZE [0xde, 0xad, 0xbe, 0xef] buf2 = Res.ok pat) :=
  ⟨by decide, by decide, List.length_replicate _ _,
    fill_pattern_doubling [0xde, 0xad, 0xbe, 0xef] (List.replicate BUF_SIZE 0) 2
      (by decide) (by decide) (List.length_replicate _ _)⟩

/-! ## Writing: the loops of `fwrite` -/

theorem sys_write_full (B : Nat) (fd : Fd) (src : List Byte) (script : List IoEv)
    (hne : no_err script = true) (hacc : accepts B script = true) (hlen : src.length ≤ B) :
    ∃ s, sys_write fd src script =
        (Sum.inr src.length,
          { content := pwrite fd.content fd.pos src, pos := fd.pos + src.length }, s) ∧
      no_err s = true ∧ accepts B s = true := by
  cases script with
  | nil => exact ⟨[], rfl, rfl, rfl⟩
  | cons e s =>
    cases e with
    | err n => simp [no_err] at hne
    | bytes n =>
      simp [accepts] at hacc
      simp [no_err] at hne
      refine ⟨s, ?_, hne, hacc.2⟩
      simp only [sys_write]
      rw [List.take_of_length_le (by omega)]

theorem fwrite_inner_full (B fsize : Nat) (hB : 0 < B) (buf : List Byte) (hbuf : buf.length = B)
    (fuel : Nat) (st : WrState) (hend : st.file_end = false) (hoff : st.file_offset < fsize)
    (hne : no_err st.script = true) (hacc : accepts B st.script = true) :
    ∃ s, fwrite_inner B fsize buf (fuel + 2) 0 st =
        Res.ok ({ fd := { content := pwrite st.fd.content st.fd.pos
                            (buf.take (min B (fsize - st.file_offset))),
                          pos := st.fd.pos + min B (fsize - st.file_offset) },
                  file_offset := st.file_offset + min B (fsize - st.file_offset),
                  file_end := decide (st.file_offset + B > fsize),
                  script := s }, false) ∧
      no_err s = true ∧ accepts B s = true := by
  have hsrc : ∀ w, w ≤ B → (buf.take w).length = w := by
    intro w hw
    simp [List.length_take, hbuf, hw]
  by_cases htr : st.file_offset + B > fsize
  · have hw : min B (fsize - st.file_offset) = fsize - st.file_offset := by omega
    have hl := hsrc (fsize - st.file_offset) (by omega)
    obtain ⟨s, hs, h1, h2⟩ := sys_write_full B st.fd
      (buf.take (fsize - st.file_offset)) st.script hne hacc (by omega)
    refine ⟨s, ?_, h1, h2⟩
    rw [hl] at hs
    simp [fwrite_inner, hend, hB, htr, hs, hw]
  · have hw : min B (fsize - st.file_offset) = B := by omega
    have hl := hsrc B (le_refl _)
    obtain ⟨s, hs, h1, h2⟩ := sys_write_full B st.fd
      (buf.take B) st.script hne hacc (by omega)
    refine ⟨s, ?_, h1, h2⟩
    rw [hl] at hs
    simp [fwrite_inner, hend, hB, htr, hs, hw]

theorem pwrite_pattern (seed c0 : List Byte) (off w : Nat) (hK : seed.length ∣ off) :
    pwrite (pattern seed off ++ c0.drop off) off (pattern seed w)
      = pattern seed (off + w) ++ c0.drop (off + w) := by
  unfold pwrite
  have hl : (pattern seed off).length = off := pattern_length _ _
  have h1 : (pattern seed off ++ c0.drop off).take off = pattern seed off := by
    rw [List.take_append_of_le_length (by omega), List.take_of_length_le (by omega)]
  have h2 : off - (pattern seed off ++ c0.drop off).length = 0 := by
    rw [List.length_append, hl]; omega
  have h3 : (pattern seed off ++ c0.drop off).drop (off + (pattern seed w).length)
      = c0.drop (off + w) := by
    rw [pattern_length]
    conv_lhs => rw [show off + w = (pattern seed off).length + w by rw [hl]]
    rw [List.drop_append, List.drop_drop]
  rw [h1, h2, h3, pattern_add _ _ _ hK]
  simp

theorem fwrite_outer_full (B fsize : Nat) (hB : 0 < B) (seed c0 : List Byte)
    (hK : seed.length ∣ B) :
    ∀ (fuel : Nat) (st : WrState), fsize < fuel + st.file_offset →
      st.fd.pos = st.file_offset → st.file_offset ≤ fsize →
      st.fd.content = pattern seed st.file_offset ++ c0.drop st.file_offset →
      (st.file_end = true → st.file_offset = fsize) →
      (st.file_end = false → seed.length ∣ st.file_offset) →
      no_err st.script = true → accepts B st.script = true →
      ∃ st1, fwrite_outer B fsize (pattern seed B) fuel st = Res.ok st1 ∧
        st1.fd.content = pattern seed fsize ++ c0.drop fsize := by
  intro fuel
  induction fuel with
  | zero => intro st hf _ hle; omega
  | succ fuel ih =>
    intro st hf hpos hle hcont hend hdiv hne hacc
    unfold fwrite_outer
    by_cases hc : st.file_offset < fsize ∧ st.file_end = false
    · rw [if_pos hc]
      obtain ⟨s, hs, h1, h2⟩ := fwrite_inner_full B fsize hB (pattern seed B)
        (pattern_length _ _) st.script.length st hc.2 hc.1 hne hacc
      rw [hs]
      simp only []
      have hw1 : 1 ≤ min B (fsize - st.file_offset) := by omega
      refine ih _ ?_ ?_ ?_ ?_ ?_ ?_ h1 h2
      · simp only []; omega
      · simp only []; omega
      · simp only []; omega
      · simp only []
        rw [hcont, hpos, pattern_take _ _ _ (Nat.min_le_left _ _)]
        exact pwrite_pattern seed c0 _ _ (hdiv hc.2)
      · simp only [decide_eq_true_eq]
        intro h; omega
      · simp only [decide_eq_false_iff_not]
        intro h
        have : min B (fsize - st.file_offset) = B := by omega
        rw [this]
        exact Dvd.dvd.add (hdiv hc.2) hK
    · rw [if_neg hc]
      refine ⟨st, rfl, ?_⟩
      have : st.file_offset = fsize := by
        by_cases h : st.file_end = true
        · exact hend h
        · have h' : st.file_end = false := by simpa using h
          have hnlt : ¬ st.file_offset < fsize := fun x => hc ⟨x, h'⟩
          omega
      rw [hcont, this]

theorem compare_chunks_match (B fsize : Nat) (seed rest : List Byte) (r : Nat)
    (hK : seed.length ∣ B) :
    ∀ (m size : Nat) (f : File) (log : List (Nat × Nat)),
      seed.length ∣ size → size + m * B ≤ fsize →
      (compare_chunks B (pattern seed B) (pattern seed fsize ++ rest) r m size f log).ret = r ∧
      (compare_chunks B (pattern seed B) (pattern seed fsize ++ rest) r m size f log).file = f := by
  intro m
  induction m with
  | zero => intro size f log _ _; exact ⟨rfl, rfl⟩
  | succ m ih =>
    intro size f log hd hle
    have hsm : (m + 1) * B = m * B + B := Nat.succ_mul m B
    have hchunk : (pattern seed B).take B = ((pattern seed fsize ++ rest).drop size).take B := by
      have e : fsize = size + (fsize - size) := by omega
      rw [List.take_of_length_le (by rw [pattern_length])]
      conv_rhs => rw [e, pattern_add _ _ _ hd]
      rw [List.append_assoc]
      rw [List.drop_left' (pattern_length _ _)]
      rw [List.take_append_of_le_length (by rw [pattern_length]; omega)]
      rw [pattern_take _ _ _ (by omega)]
    unfold compare_chunks
    simp only [hchunk, ne_eq, not_true_eq_false, if_false]
    exact ih (size + B) f _ (Dvd.dvd.add hd hK) (by omega)

theorem check_fd_match (B : Nat) (hB : 0 < B) (f : File) (rest : List Byte)
    (junk : Nat → Byte) (reads : List IoEv) (hK : f.checksum.length ∣ B)
    (hpat : fill_pattern B f.checksum (malloc junk B) = Res.ok (pattern f.checksum B)) :
    ∃ out, File.check_fd B f { content := pattern f.checksum f.fsize ++ rest, pos := 0 }
        junk reads = Res.ok out ∧ out.file = f ∧ (no_err reads = true → out.ret = 0) := by
  obtain ⟨m, r, h1, h2, h3, h4, h5⟩ := check_fd_spec B hB f
    (pattern f.checksum f.fsize ++ rest) junk reads _ hpat
  obtain ⟨e1, e2⟩ := compare_chunks_match B f.fsize f.checksum rest r hK m 0 f []
    (Nat.dvd_zero _) (by omega)
  exact ⟨_, h3, e2, fun h => by rw [e1]; exact h4 h⟩

theorem pattern_zero (seed : List Byte) : pattern seed 0 = [] := rfl

theorem dvd_buf_size (n k : Nat) (hk : n = 2 ^ k) (hkb : k ≤ 20) : n ∣ BUF_SIZE := by
  rw [hk, BUF_SIZE_eq]
  exact pow_dvd_pow 2 hkb

theorem check_fd_small (f : File) (content : List Byte) (junk : Nat → Byte)
    (reads : List IoEv) (hseed : f.checksum ≠ []) (hlt : f.fsize < BUF_SIZE) :
    ∃ r, File.check_fd BUF_SIZE f { content := content, pos := 0 } junk reads
        = Res.ok { ret := r, file := f, compared := [] } ∧
      (no_err reads = true → r = 0) := by
  have hB : 0 < BUF_SIZE := by decide
  obtain ⟨bufm, hpat⟩ := fill_pattern_terminates BUF_SIZE f.checksum (malloc junk BUF_SIZE) hseed
  obtain ⟨m, r, h1, h2, h3, h4, h5⟩ := check_fd_spec BUF_SIZE hB f content junk reads bufm hpat
  have hm0 : m = 0 := by
    rcases Nat.eq_zero_or_pos m with h | h
    · exact h
    · have : BUF_SIZE ≤ m * BUF_SIZE := Nat.le_mul_of_pos_left _ h
      omega
  subst hm0
  exact ⟨r, h3, h4⟩

/-- With only full writes, `fwrite` stores the pattern in the first `fsize`
bytes and changes nothing of the object but `sync_failed`. -/
theorem fwrite_full_spec (f : File) (k : Nat) (c0 : List Byte) (env : WriteEnv)
    (hk : f.checksum.length = 2 ^ k) (hkb : k ≤ 20)
    (hw1 : no_err env.writes = true) (hw2 : accepts BUF_SIZE env.writes = true) :
    File.fwrite BUF_SIZE f (some c0) env =
      Res.ok ({ f with sync_failed :=
                  f.sync_failed || decide (env.fdatasync_rc ≠ 0) || decide (env.close_rc ≠ 0) },
              pattern f.checksum f.fsize ++ c0.drop f.fsize) := by
  have hB : 0 < BUF_SIZE := by decide
  have hK := dvd_buf_size _ k hk hkb
  have hpat : ∀ junk, fill_pattern BUF_SIZE f.checksum (malloc junk BUF_SIZE)
      = Res.ok (pattern f.checksum BUF_SIZE) := fun junk =>
    fill_pattern_spec _ 20 k _ _ BUF_SIZE_eq hk hkb (malloc_length _ _)
  obtain ⟨st, hst, hcont⟩ := fwrite_outer_full BUF_SIZE f.fsize hB f.checksum c0 hK (f.fsize + 1)
    { fd := { content := c0, pos := 0 }, file_offset := 0, file_end := false,
      script := env.writes }
    (by simp) rfl (Nat.zero_le _) (by simp [pattern_zero])
    (by intro h; cases h) (fun _ => Nat.dvd_zero _) hw1 hw2
  unfold File.fwrite
  simp only [hpat, hst]
  have hchk : ∀ f1 : File, f1.checksum = f.checksum → f1.fsize = f.fsize →
      ∃ out, File.check_fd BUF_SIZE f1 { content := st.fd.content, pos := 0 } env.junk env.reads
        = Res.ok out ∧ out.file = f1 := by
    intro f1 e1 e2
    have := check_fd_match BUF_SIZE hB f1 (c0.drop f.fsize) env.junk env.reads
      (by rw [e1]; exact hK) (by rw [e1]; exact hpat _)
    rw [e1, e2, ← hcont] at this
    obtain ⟨out, h1, h2, _⟩ := this
    exact ⟨out, h1, h2⟩
  rw [hcont]
  rw [hcont] at hchk
  by_cases hs : env.fdatasync_rc = 0
  · obtain ⟨out, h1, h2⟩ := hchk f rfl rfl
    by_cases hc : env.close_rc = 0 <;> by_cases hi : env.immediate_check = true <;>
      simp [hs, hc, hi, h1, h2]
  · obtain ⟨out, h1, h2⟩ := hchk { f with sync_failed := true } rfl rfl
    by_cases hc : env.close_rc = 0 <;> by_cases hi : env.immediate_check = true <;>
      simp [hs, hc, hi, h1, h2]

theorem trylock_snd (f : File) :
    f.trylock.2 = f ∨ f.trylock.2 = { f with locked := true } := by
  unfold File.trylock
  by_cases h : f.locked = true
  · left; simp [h]
  · right; simp [h]

/-- A check of a file whose first `fsize` bytes are the pattern succeeds. -/
theorem check_match (f : File) (k : Nat) (rest : List Byte) (junk : Nat → Byte)
    (reads : List IoEv) (herr : f.has_error = false)
    (hk : f.checksum.length = 2 ^ k) (hkb : k ≤ 20) (hr : no_err reads = true) :
    ∃ f2, File.check BUF_SIZE f (some (pattern f.checksum f.fsize ++ rest)) junk reads
        = Res.ok (0, f2) ∧ f2.has_error = false := by
  have hB : 0 < BUF_SIZE := by decide
  have hK := dvd_buf_size _ k hk hkb
  have hpat : ∀ junk, fill_pattern BUF_SIZE f.checksum (malloc junk BUF_SIZE)
      = Res.ok (pattern f.checksum BUF_SIZE) := fun junk =>
    fill_pattern_spec _ 20 k _ _ BUF_SIZE_eq hk hkb (malloc_length _ _)
  have hchk : ∀ f1 : File, f1.checksum = f.checksum → f1.fsize = f.fsize →
      ∃ out, File.check_fd BUF_SIZE f1
          { content := pattern f.checksum f.fsize ++ rest, pos := 0 } junk reads
        = Res.ok out ∧ out.file = f1 ∧ out.ret = 0 := by
    intro f1 e1 e2
    have := check_fd_match BUF_SIZE hB f1 rest junk reads
      (by rw [e1]; exact hK) (by rw [e1]; exact hpat _)
    rw [e1, e2] at this
    obtain ⟨out, h1, h2, h3⟩ := this
    exact ⟨out, h1, h2, h3 hr⟩
  unfold File.check
  simp only [herr, Bool.false_eq_true, if_false]
  rcases trylock_snd f with ht | ht
  · obtain ⟨out, h1, h2, h3⟩ := hchk f rfl rfl
    rw [ht, h1]
    refine ⟨{ out.file with num_checks := out.file.num_checks + 1 }, ?_, ?_⟩
    · simp only [h3]
    · simp [h2, herr]
  · obtain ⟨out, h1, h2, h3⟩ := hchk { f with locked := true } rfl rfl
    rw [ht, h1]
    refine ⟨{ out.file with num_checks := out.file.num_checks + 1 }, ?_, ?_⟩
    · simp only [h3]
    · simp [h2, herr]

/-- C2: round trip. For every object with `has_error = false` (its seed having
`2 ^ k ≤ BUF_SIZE` bytes), whatever the stored file held before: if no `write`
call fails and every `write` call takes all the bytes it is given, `fwrite`
returns, and a `check` of the file it leaves, read without read error, returns
`0` and leaves `has_error = false`. -/
theorem write_then_check (f : File) (k : Nat) (c0 : List Byte) (env : WriteEnv)
    (junk : Nat → Byte) (reads : List IoEv)
    (herr : f.has_error = false) (hk : f.checksum.length = 2 ^ k) (hkb : k ≤ 20)
    (hw1 : no_err env.writes = true) (hw2 : accepts BUF_SIZE env.writes = true)
    (hr : no_err reads = true) :
    ∃ f1 c1 f2, File.fwrite BUF_SIZE f (some c0) env = Res.ok (f1, c1) ∧
      File.check BUF_SIZE f1 (some c1) junk reads = Res.ok (0, f2) ∧
      f2.has_error = false := by
  obtain ⟨f2, h1, h2⟩ := check_match
    { f with sync_failed :=
        f.sync_failed || decide (env.fdatasync_rc ≠ 0) || decide (env.close_rc ≠ 0) }
    k (c0.drop f.fsize) junk reads herr hk hkb hr
  exact ⟨_, _, f2, fwrite_full_spec f k c0 env hk hkb hw1 hw2, h1, h2⟩

theorem write_then_check_witness :
    ex_file.has_error = false ∧ ex_file.checksum.length = 2 ^ 2 ∧ 2 ≤ 20 ∧
    no_err ex_env.writes = true ∧ accepts BUF_SIZE ex_env.writes = true ∧
    no_err [IoEv.bytes 4096] = true ∧
    ∃ f1 c1 f2, File.fwrite BUF_SIZE ex_file (some []) ex_env = Res.ok (f1, c1) ∧
      File.check BUF_SIZE f1 (some c1) (fun _ => 0) [IoEv.bytes 4096] = Res.ok (0, f2) ∧
      f2.has_error = false :=
  ⟨by decide, by decide, by decide, by decide, by decide, by decide,
    write_then_check ex_file 2 [] ex_env (fun _ => 0) [IoEv.bytes 4096]
      (by decide) (by decide) (by decide) (by decide) (by decide) (by decide)⟩

/-- When the file can be opened, a call of `check` on an object without
`has_error` returns, with `num_checks` one higher, whatever the reads do. -/
theorem check_opened_counts (f : File) (content : List Byte) (junk : Nat → Byte)
    (reads : List IoEv) (hseed : f.checksum ≠ []) (herr : f.has_error = false) :
    ∃ ret f1, File.check BUF_SIZE f (some content) junk reads = Res.ok (ret, f1) ∧
      f1.num_checks = f.num_checks + 1 := by
  have hB : 0 < BUF_SIZE := by decide
  have hchk : ∀ f1 : File, f1.checksum = f.checksum → f1.num_checks = f.num_checks →
      ∃ out, File.check_fd BUF_SIZE f1 { content := content, pos := 0 } junk reads
        = Res.ok out ∧ out.file.num_checks = f.num_checks := by
    intro f1 e1 e2
    obtain ⟨bufm, hpat⟩ := fill_pattern_terminates BUF_SIZE f1.checksum
      (malloc junk BUF_SIZE) (by rw [e1]; exact hseed)
    obtain ⟨m, r, _, _, h3, _, _⟩ := check_fd_spec BUF_SIZE hB f1 content junk reads bufm hpat
    refine ⟨_, h3, ?_⟩
    rcases compare_chunks_file BUF_SIZE bufm content r m 0 f1 [] with h | h <;> rw [h]
    · exact e2
    · exact e2
  unfold File.check
  simp only [herr, Bool.false_eq_true, if_false]
  rcases trylock_snd f with ht | ht
  · obtain ⟨out, h1, h2⟩ := hchk f rfl rfl
    rw [ht, h1]
    exact ⟨out.ret, { out.file with num_checks := out.file.num_checks + 1 }, rfl,
      by simp [h2]⟩
  · obtain ⟨out, h1, h2⟩ := hchk { f with locked := true } rfl rfl
    rw [ht, h1]
    exact ⟨out.ret, { out.file with num_checks := out.file.num_checks + 1 }, rfl,
      by simp [h2]⟩

/-- C3 (amended): every call of `check` that returns, on an object with
`has_error = false` on entry, has increased `num_checks` by exactly one,
whether the pass succeeds, finds a mismatch or hits a read error (and such a
call does return whenever the file can be opened; when `open` fails the
process exits); a call on an object with `has_error = true` returns `0` at
once and leaves the object, `num_checks` included, unchanged. -/
theorem check_counts_unless_has_error (f : File) (stored : Option (List Byte))
    (junk : Nat → Byte) (reads : List IoEv) (hseed : f.checksum ≠ []) :
    (f.has_error = false → ∀ ret f1,
      File.check BUF_SIZE f stored junk reads = Res.ok (ret, f1) →
        f1.num_checks = f.num_checks + 1) ∧
    (f.has_error = false → stored ≠ none →
      ∃ ret f1, File.check BUF_SIZE f stored junk reads = Res.ok (ret, f1)) ∧
    (f.has_error = false → stored = none →
      File.check BUF_SIZE f stored junk reads = Res.exit) ∧
    (f.has_error = true →
      File.check BUF_SIZE f stored junk reads = Res.ok (0, f)) := by
  have hnone : f.has_error = false → File.check BUF_SIZE f none junk reads = Res.exit := by
    intro herr
    unfold File.check
    simp only [herr, Bool.false_eq_true, if_false]
  refine ⟨?_, ?_, ?_, ?_⟩
  · intro herr ret f1 hret
    cases stored with
    | none =>
      rw [hnone herr] at hret
      cases hret
    | some content =>
      obtain ⟨ret2, f2, h1, h2⟩ := check_opened_counts f content junk reads hseed herr
      rw [h1] at hret
      cases hret
      exact h2
  · intro herr hs
    cases stored with
    | none => exact absurd rfl hs
    | some content =>
      obtain ⟨ret2, f2, h1, _⟩ := check_opened_counts f content junk reads hseed herr
      exact ⟨ret2, f2, h1⟩
  · intro herr hs
    subst hs
    exact hnone herr
  · intro herr
    unfold File.check
    rw [if_pos herr]

theorem check_counts_unless_has_error_witness :
    ex_file.checksum ≠ [] ∧
    (ex_file.has_error = false → ∀ ret f1,
      File.check BUF_SIZE ex_file (some [1, 2, 3]) (fun _ => 0) [IoEv.err 5]
          = Res.ok (ret, f1) →
        f1.num_checks = ex_file.num_checks + 1) ∧
    (ex_file.has_error = false → (some [1, 2, 3] : Option (List Byte)) ≠ none →
      ∃ ret f1, File.check BUF_SIZE ex_file (some [1, 2, 3]) (fun _ => 0) [IoEv.err 5]
        = Res.ok (ret, f1)) ∧
    (ex_file.has_error = false → (some [1, 2, 3] : Option (List Byte)) = none →
      File.check BUF_SIZE ex_file (some [1, 2, 3]) (fun _ => 0) [IoEv.err 5] = Res.exit) ∧
    (ex_file.has_error = true →
      File.check BUF_SIZE ex_file (some [1, 2, 3]) (fun _ => 0) [IoEv.err 5]
        = Res.ok (0, ex_file)) :=
  ⟨by decide,
    check_counts_unless_has_error ex_file (some [1, 2, 3]) (fun _ => 0) [IoEv.err 5]
      (by decide)⟩

/-- C3 (counterexample): on an object with `has_error = true`, `check` returns
without increasing `num_checks`. -/
theorem check_has_error_does_not_count :
    ¬ (∀ ret f1, File.check BUF_SIZE ex_file_err (some []) (fun _ => 0) [] = Res.ok (ret, f1) →
        f1.num_checks = ex_file_err.num_checks + 1) := by
  intro h
  have := h 0 ex_file_err (by unfold File.check; rfl)
  revert this
  decide

theorem pattern_getElem_opt (seed : List Byte) (n i : Nat) (h : i < n) :
    (pattern seed n)[i]? = some (pattern_byte seed i) := by
  simp [pattern, h]

/-- A check of an object smaller than one buffer never looks at the data. -/
theorem check_small (f : File) (content : List Byte) (junk : Nat → Byte) (reads : List IoEv)
    (herr : f.has_error = false) (hlock : f.locked = true) (hseed : f.checksum ≠ [])
    (hlt : f.fsize < BUF_SIZE) (hr : no_err reads = true) :
    File.check BUF_SIZE f (some content) junk reads
      = Res.ok (0, { f with num_checks := f.num_checks + 1 }) := by
  obtain ⟨r, h1, h2⟩ := check_fd_small f content junk reads hseed hlt
  have hr0 := h2 hr
  subst hr0
  unfold File.check File.trylock
  simp only [herr, hlock, Bool.false_eq_true, if_false, if_true, h1]

/-- C1 (failing input): the object `ex_file` (`fsize = 1029`, `has_error` and
`sync_failed` false) is written completely by `fwrite`: the stored file has
1029 bytes, all equal to the pattern. Byte 0 is then changed from `0xcd` to
`0x00`, every other byte is kept. `check`, reading without error, returns `0`
and leaves `has_error = false`. -/
theorem check_misses_tampered_byte :
    File.fwrite BUF_SIZE ex_file (some []) ex_env
      = Res.ok (ex_file, pattern ex_file.checksum 1029) ∧
    (pattern ex_file.checksum 1029).length = ex_file.fsize ∧
    (pattern ex_file.checksum 1029)[0]? = some 0xcd ∧
    ((pattern ex_file.checksum 1029).set 0 0x00)[0]? = some 0x00 ∧
    (∀ i, i ≠ 0 → ((pattern ex_file.checksum 1029).set 0 0x00)[i]?
      = (pattern ex_file.checksum 1029)[i]?) ∧
    File.check BUF_SIZE ex_file (some ((pattern ex_file.checksum 1029).set 0 0x00))
        (fun _ => 0) []
      = Res.ok (0, { ex_file with num_checks := 1 }) := by
  refine ⟨?_, ?_, ?_, ?_, ?_, ?_⟩
  · have := fwrite_full_spec ex_file 2 [] ex_env (by decide) (by decide) (by decide) (by decide)
    rw [this]
    simp only [List.drop_nil, List.append_nil]
    rfl
  · rw [pattern_length]; rfl
  · rw [pattern_getElem_opt _ _ _ (by decide)]; rfl
  · rw [List.getElem?_set_self (by rw [pattern_length]; decide)]
  · intro i hi
    rw [List.getElem?_set_ne (fun h => hi h.symm)]
  · exact check_small ex_file _ _ [] (by decide) (by decide) (by decide) (by decide) (by decide)

theorem fwrite_outer_short (B fsize : Nat) (buf c0 : List Byte) (n : Nat) (s : List IoEv)
    (h0 : 0 < fsize) (hlt : fsize < B) :
    fwrite_outer B fsize buf (fsize + 1)
        { fd := { content := c0, pos := 0 }, file_offset := 0, file_end := false,
          script := IoEv.bytes n :: s }
      = Res.ok { fd := { content := pwrite c0 0 ((buf.take fsize).take n),
                         pos := ((buf.take fsize).take n).length },
                 file_offset := ((buf.take fsize).take n).length,
                 file_end := true, script := s } := by
  have hB : 0 < B := by omega
  obtain ⟨k, rfl⟩ : ∃ k, fsize = k + 1 := ⟨fsize - 1, by omega⟩
  simp [fwrite_outer, fwrite_inner, sys_write, hlt, hB]

theorem pattern_take_min (seed : List Byte) (n m : Nat) :
    (pattern seed n).take m = pattern seed (min m n) := by
  rcases Nat.le_total m n with h | h
  · rw [Nat.min_eq_left h, pattern_take _ _ _ h]
  · rw [Nat.min_eq_right h, List.take_of_length_le (by rw [pattern_length]; exact h)]

/-- When the object is smaller than one buffer, `fwrite` calls `write` once,
whatever the call returns. -/
theorem fwrite_short_spec (f : File) (k : Nat) (c0 : List Byte) (env : WriteEnv)
    (n : Nat) (s : List IoEv)
    (hk : f.checksum.length = 2 ^ k) (hkb : k ≤ 20)
    (h0 : 0 < f.fsize) (hlt : f.fsize < BUF_SIZE) (hw : env.writes = IoEv.bytes n :: s)
    (hi : env.immediate_check = false) (hs : env.fdatasync_rc = 0) (hc : env.close_rc = 0) :
    File.fwrite BUF_SIZE f (some c0) env
      = Res.ok (f, pwrite c0 0 (pattern f.checksum (min n f.fsize))) := by
  have hpat : fill_pattern BUF_SIZE f.checksum (malloc env.junk BUF_SIZE)
      = Res.ok (pattern f.checksum BUF_SIZE) :=
    fill_pattern_spec _ 20 k _ _ BUF_SIZE_eq hk hkb (malloc_length _ _)
  have hout := fwrite_outer_short BUF_SIZE f.fsize (pattern f.checksum BUF_SIZE) c0 n s h0 hlt
  rw [pattern_take _ _ _ (le_of_lt hlt), pattern_take_min] at hout
  unfold File.fwrite
  simp only [hpat, hw, hout, hi, hs, hc]
  simp

/-- C5 (failing input): for the object `ex_file` (`fsize = 1029`) and an empty
stored file, when the first `write` call takes one byte (no call fails, every
call takes at least one byte), `fwrite` returns with a stored file of one
byte: the truncated final chunk is not retried. -/
theorem fwrite_short_write_final_chunk :
    no_err ex_env_short.writes = true ∧ progress ex_env_short.writes = true ∧
    File.fwrite BUF_SIZE ex_file (some []) ex_env_short = Res.ok (ex_file, [0xcd]) := by
  refine ⟨by decide, by decide, ?_⟩
  rw [fwrite_short_spec ex_file 2 [] ex_env_short 1 [] (by decide) (by decide) (by decide)
    (by decide) rfl rfl rfl rfl]
  decide

/-! ## Constructor: size and name -/

theorem u64_of_lt {n : Nat} (h : n < 2 ^ 64) : u64 n = n := Nat.mod_eq_of_lt h

/-- C7: size bound. For `size_min ≤ size_max < 64` and any two values of
`random()`, the computed `fsize` is `2 ^ e + j` with `size_min ≤ e ≤ size_max`
and `0 ≤ j ≤ 4095`; for `size_min = size_max = 10` it lies in `[1024, 5119]`. -/
theorem init_fsize_bound (size_min size_max r_size r_exp : Nat)
    (hle : size_min ≤ size_max) (hlt : size_max < 64) :
    (∃ e j, size_min ≤ e ∧ e ≤ size_max ∧ j ≤ 4095 ∧
      File.init_fsize size_min size_max r_size r_exp = 2 ^ e + j) ∧
    (size_min = 10 → size_max = 10 →
      1024 ≤ File.init_fsize size_min size_max r_size r_exp ∧
      File.init_fsize size_min size_max r_size r_exp ≤ 5119) := by
  have hj : r_size % 4096 ≤ 4095 := by omega
  have h1 : u64 size_max = size_max := u64_of_lt (by omega)
  have h2 : u64 size_min = size_min := u64_of_lt (by omega)
  have h3 : u64 (size_max + 2 ^ 64 - size_min) = size_max - size_min := by
    unfold u64; omega
  have h4 : u64 (size_max - size_min + 1) = size_max - size_min + 1 := u64_of_lt (by omega)
  have hr : u64 r_exp % (size_max - size_min + 1) < size_max - size_min + 1 :=
    Nat.mod_lt _ (by omega)
  have h5 : u64 (size_min + u64 r_exp % (size_max - size_min + 1))
      = size_min + u64 r_exp % (size_max - size_min + 1) := u64_of_lt (by omega)
  have h6 : u64 (r_size % 4096) = r_size % 4096 := u64_of_lt (by omega)
  have hpow : 2 ^ (size_min + u64 r_exp % (size_max - size_min + 1)) ≤ 2 ^ 63 :=
    Nat.pow_le_pow_right (by decide) (by omega)
  have h7 : u64 (2 ^ (size_min + u64 r_exp % (size_max - size_min + 1)))
      = 2 ^ (size_min + u64 r_exp % (size_max - size_min + 1)) := u64_of_lt (by omega)
  have h8 : File.init_fsize size_min size_max r_size r_exp
      = 2 ^ (size_min + u64 r_exp % (size_max - size_min + 1)) + r_size % 4096 := by
    simp only [File.init_fsize, h1, h2, h3, h4, h5, h6, h7]
    exact u64_of_lt (by omega)
  refine ⟨⟨_, _, ?_, ?_, hj, h8⟩, ?_⟩
  · omega
  · omega
  · intro ha hb
    have hs : size_min + u64 r_exp % (size_max - size_min + 1) = 10 := by omega
    rw [h8, hs]
    omega

theorem init_fsize_bound_witness :
    10 ≤ 12 ∧ 12 < 64 ∧
    (∃ e j, 10 ≤ e ∧ e ≤ 12 ∧ j ≤ 4095 ∧ File.init_fsize 10 12 5 77 = 2 ^ e + j) ∧
    (10 = 10 → 12 = 10 → 1024 ≤ File.init_fsize 10 12 5 77 ∧ File.init_fsize 10 12 5 77 ≤ 5119) :=
  ⟨by decide, by decide, init_fsize_bound 10 12 5 77 (by decide) (by decide)⟩

theorem hex_digit_is_hex (d : Nat) (h : d < 16) : is_hex (hex_digit d) = true := by
  interval_cases d <;> decide

theorem hex_value_digit (d : Nat) (h : d < 16) : hex_value (hex_digit d) = d := by
  interval_cases d <;> decide

theorem hex_aux_acc (fuel n : Nat) (acc : List Char) :
    hex_aux fuel n acc = hex_aux fuel n [] ++ acc := by
  induction fuel generalizing n acc with
  | zero => simp [hex_aux]
  | succ fuel ih =>
    unfold hex_aux
    split
    · simp
    · rw [ih (n / 16) (hex_digit (n % 16) :: acc), ih (n / 16) [hex_digit (n % 16)]]
      simp

theorem hex_parse_snoc (s : List Char) (c : Char) :
    hex_parse (s ++ [c]) = hex_parse s * 16 + hex_value c := by
  simp [hex_parse, List.foldl_append]

theorem hex_aux_spec (fuel n : Nat) (h : n ≤ fuel) :
    (∀ c ∈ hex_aux fuel n [], is_hex c = true) ∧
    hex_parse (hex_aux fuel n []) = n ∧
    (0 < n → (hex_aux fuel n []).length = Nat.log 16 n + 1) := by
  induction fuel generalizing n with
  | zero =>
    have : n = 0 := by omega
    subst this
    simp [hex_aux, hex_parse]
  | succ fuel ih =>
    unfold hex_aux
    by_cases hn : n = 0
    · subst hn; simp [hex_parse]
    · rw [if_neg hn, hex_aux_acc]
      have hdiv : n / 16 ≤ fuel := by omega
      obtain ⟨i1, i2, i3⟩ := ih (n / 16) hdiv
      refine ⟨?_, ?_, ?_⟩
      · intro c hc
        rw [List.mem_append] at hc
        rcases hc with hc | hc
        · exact i1 c hc
        · simp at hc
          subst hc
          exact hex_digit_is_hex _ (Nat.mod_lt _ (by decide))
      · rw [hex_parse_snoc, i2, hex_value_digit _ (Nat.mod_lt _ (by decide))]
        omega
      · intro _
        rw [List.length_append]
        by_cases hlt : n < 16
        · have h0 : n / 16 = 0 := by omega
          rw [h0]
          have : hex_aux fuel 0 [] = [] := by cases fuel <;> simp [hex_aux]
          rw [this, Nat.log_of_lt hlt]
          rfl
        · have hpos : 0 < n / 16 := by omega
          have : Nat.log 16 n = Nat.log 16 (n / 16) + 1 :=
            Nat.log_of_one_lt_of_le (by decide) (by omega)
          rw [this, i3 hpos]
          rfl

theorem printf_x_spec (n : Nat) :
    (∀ c ∈ printf_x n, is_hex c = true) ∧ hex_parse (printf_x n) = n ∧
    (printf_x n).length = Nat.log 16 n + 1 := by
  unfold printf_x
  by_cases hn : n = 0
  · subst hn; simp; decide
  · rw [if_neg hn]
    obtain ⟨i1, i2, i3⟩ := hex_aux_spec n n le_rfl
    exact ⟨i1, i2, i3 (by omega)⟩

/-- C8 (amended): for every identifier below `2 ^ 31` the name consists only of
lower-case hexadecimal digits and denotes the identifier; it is not padded:
its length is the number of hexadecimal digits of the identifier
(`Nat.log 16 id + 1`), between 1 and 8. -/
theorem init_fname_hex (id : Nat) (h : id < 2 ^ 31) :
    (∀ c ∈ File.init_fname id, is_hex c = true) ∧
    hex_parse (File.init_fname id) = id ∧
    (File.init_fname id).length = Nat.log 16 id + 1 ∧
    1 ≤ (File.init_fname id).length ∧ (File.init_fname id).length ≤ 8 := by
  have hmod : id % 2 ^ 32 = id := Nat.mod_eq_of_lt (by omega)
  obtain ⟨i1, i2, i3⟩ := printf_x_spec id
  have hlog : Nat.log 16 id < 8 := by
    by_cases h0 : id = 0
    · subst h0; simp
    · exact Nat.log_lt_of_lt_pow h0 (by omega)
  have htake : File.init_fname id = printf_x id := by
    unfold File.init_fname
    rw [hmod]
    exact List.take_of_length_le (by omega)
  rw [htake]
  exact ⟨i1, i2, i3, by omega, by omega⟩

theorem init_fname_hex_witness :
    0xbeef < 2 ^ 31 ∧
    (∀ c ∈ File.init_fname 0xbeef, is_hex c = true) ∧
    hex_parse (File.init_fname 0xbeef) = 0xbeef ∧
    (File.init_fname 0xbeef).length = Nat.log 16 0xbeef + 1 ∧
    1 ≤ (File.init_fname 0xbeef).length ∧ (File.init_fname 0xbeef).length ≤ 8 :=
  ⟨by decide, init_fname_hex 0xbeef (by decide)⟩

/-- C8 (counterexample): the names of the identifiers `1` and `16` ("1" and
"10") differ in length. -/
theorem init_fname_not_fixed_width :
    ¬ (∀ a b : Nat, a < 2 ^ 31 → b < 2 ^ 31 →
        (File.init_fname a).length = (File.init_fname b).length) := by
  intro h
  have := h 1 16 (by decide) (by decide)
  revert this
  decide

/-! ## List linkage -/

theorem Heap.set_apply (h : Heap) (a : Nat) (f : File) (x : Nat) :
    h.set a f x = if x = a then f else h x := rfl

theorem link_next (h : Heap) (n o : Nat) (hne : n ≠ o) (hpn : (h o).prev ≠ some n) (x : Nat) :
    (File.link h n (some o) x).next =
      if (h o).prev = some x then some n else if x = n then some o else (h x).next := by
  have hon : o ≠ n := fun e => hne e.symm
  cases hp : (h o).prev with
  | none =>
    simp [File.link, Heap.set_apply, hne, hon, hp]
    split_ifs <;> simp_all
  | some p =>
    have hpn' : p ≠ n := by
      intro e; subst e; exact hpn hp
    simp only [File.link, Heap.set_apply, hne, hon, hp, hpn', if_true, if_false]
    by_cases hxp : x = p
    · subst hxp; simp
    · have : p ≠ x := fun e => hxp e.symm
      simp [hxp, this]
      split_ifs <;> simp_all

theorem link_prev (h : Heap) (n o : Nat) (hne : n ≠ o) (hpn : (h o).prev ≠ some n) (x : Nat) :
    (File.link h n (some o) x).prev =
      if x = o then some n else if x = n then (h o).prev else (h x).prev := by
  have hon : o ≠ n := fun e => hne e.symm
  cases hp : (h o).prev with
  | none =>
    simp [File.link, Heap.set_apply, hne, hon, hp]
    split_ifs <;> simp_all
  | some p =>
    have hpn' : p ≠ n := by
      intro e; subst e; exact hpn hp
    simp only [File.link, Heap.set_apply, hne, hon, hp, hpn', if_true, if_false]
    by_cases hxp : x = p
    · subst hxp
      simp
      split_ifs <;> simp_all
    · simp [hxp]
      split_ifs <;> simp_all

theorem link_frame (h : Heap) (n o : Nat) (hne : n ≠ o) (hpn : (h o).prev ≠ some n) (x : Nat) :
    { File.link h n (some o) x with prev := (h x).prev, next := (h x).next } = h x := by
  have hon : o ≠ n := fun e => hne e.symm
  cases hp : (h o).prev with
  | none =>
    simp [File.link, Heap.set_apply, hne, hon, hp]
    split_ifs <;> simp_all
    rw [← hp]
  | some p =>
    have hpn' : p ≠ n := by
      intro e; subst e; exact hpn hp
    simp only [File.link, Heap.set_apply, hne, hon, hp, hpn', if_true, if_false]
    by_cases hxp : x = p
    · subst hxp
      simp
      split_ifs <;> simp_all
      rw [← hp]
    · simp [hxp]
      split_ifs <;> simp_all
      rw [← hp]

/-- C9: `link` inserts immediately before its argument. In a well-formed heap,
for a node `o` and a detached node `n` other than `o`, after `n->link(o)`:
`n.next = o`, `o.prev = n`, `n.prev` is the old predecessor `p` of `o`,
`p.next = n` when `p` exists, every other `next` and `prev` and every other
field of every object is unchanged, and the heap is again well-formed. -/
theorem link_inserts_before (h : Heap) (n o : Nat) (hwf : h.wf)
    (hprev : (h n).prev = none) (hnext : (h n).next = none) (hne : n ≠ o) :
    (File.link h n (some o) n).next = some o ∧
    (File.link h n (some o) o).prev = some n ∧
    (File.link h n (some o) n).prev = (h o).prev ∧
    (∀ p, (h o).prev = some p → (File.link h n (some o) p).next = some n) ∧
    (∀ x, x ≠ n → (h o).prev ≠ some x → (File.link h n (some o) x).next = (h x).next) ∧
    (∀ x, x ≠ n → x ≠ o → (File.link h n (some o) x).prev = (h x).prev) ∧
    (∀ x, { File.link h n (some o) x with prev := (h x).prev, next := (h x).next } = h x) ∧
    (File.link h n (some o)).wf := by
  obtain ⟨wf1, wf2⟩ := hwf
  have hon : o ≠ n := fun e => hne e.symm
  have hpn : (h o).prev ≠ some n := by
    intro hp
    have := wf2 o n hp
    rw [hnext] at this
    exact Option.noConfusion this
  have hN := link_next h n o hne hpn
  have hP := link_prev h n o hne hpn
  refine ⟨?_, ?_, ?_, ?_, ?_, ?_, link_frame h n o hne hpn, ?_, ?_⟩
  · rw [hN]; simp [hpn]
  · rw [hP]; simp
  · rw [hP]; simp [hne]
  · intro p hp; rw [hN]; simp [hp]
  · intro x hx hxp; rw [hN]; simp [hx, hxp]
  · intro x hx hxo; rw [hP]; simp [hx, hxo]
  · intro x y hxy
    rw [hN] at hxy
    rw [hP]
    by_cases hxp : (h o).prev = some x
    · rw [if_pos hxp] at hxy
      cases hxy
      simp [hne, hxp]
    · rw [if_neg hxp] at hxy
      by_cases hxn : x = n
      · rw [if_pos hxn] at hxy
        cases hxy
        simp [hxn]
      · rw [if_neg hxn] at hxy
        have hy := wf1 x y hxy
        have hyo : y ≠ o := by
          intro e; subst e; exact hxp hy
        have hyn : y ≠ n := by
          intro e; subst e; rw [hprev] at hy; cases hy
        simp [hyo, hyn, hy]
  · intro x y hxy
    rw [hP] at hxy
    rw [hN]
    by_cases hxo : x = o
    · rw [if_pos hxo] at hxy
      cases hxy
      subst hxo
      simp [hpn]
    · rw [if_neg hxo] at hxy
      by_cases hxn : x = n
      · rw [if_pos hxn] at hxy
        simp [hxy, hxn]
      · rw [if_neg hxn] at hxy
        have hy := wf2 x y hxy
        have hyn : y ≠ n := by
          intro e; subst e; rw [hnext] at hy; cases hy
        have hyp : (h o).prev ≠ some y := by
          intro e
          have := wf2 o y e
          rw [hy] at this
          exact hxo (Option.some.inj this)
        simp [hyp, hyn, hy]

theorem ex_heap_wf : ex_heap.wf := by
  constructor
  · intro x y h
    by_cases hx : x = 1
    · subst hx; simp [ex_heap] at h; subst h; simp [ex_heap]
    · simp [ex_heap, hx] at h
  · intro x y h
    by_cases hx : x = 2
    · subst hx; simp [ex_heap] at h; subst h; simp [ex_heap]
    · simp [ex_heap, hx] at h

theorem link_inserts_before_witness :
    ex_heap.wf ∧ (ex_heap 3).prev = none ∧ (ex_heap 3).next = none ∧ 3 ≠ 2 ∧
    (File.link ex_heap 3 (some 2) 3).next = some 2 ∧
    (File.link ex_heap 3 (some 2) 2).prev = some 3 ∧
    (File.link ex_heap 3 (some 2) 3).prev = (ex_heap 2).prev ∧
    (∀ p, (ex_heap 2).prev = some p → (File.link ex_heap 3 (some 2) p).next = some 3) ∧
    (∀ x, x ≠ 3 → (ex_heap 2).prev ≠ some x →
      (File.link ex_heap 3 (some 2) x).next = (ex_heap x).next) ∧
    (∀ x, x ≠ 3 → x ≠ 2 → (File.link ex_heap 3 (some 2) x).prev = (ex_heap x).prev) ∧
    (∀ x, { File.link ex_heap 3 (some 2) x with
              prev := (ex_heap x).prev, next := (ex_heap x).next } = ex_heap x) ∧
    (File.link ex_heap 3 (some 2)).wf :=
  ⟨ex_heap_wf, by decide, by decide, by decide,
    link_inserts_before ex_heap 3 2 ex_heap_wf (by decide) (by decide) (by decide)⟩

end Fstest
